import Mathlib

/-!
Shallow embedding of `polyopt/POPSolver.py` (class `POPSolver`), the core that
translates a polynomial optimization problem "min f(x) s.t. g_i(x) >= 0" into
the data of its Lasserre/moment SDP relaxation: a moment matrix family, one
localizing matrix family per constraint, and an objective vector.

Monomials are exponent tuples, embedded as `List Nat`; polynomials are
coefficient maps, embedded as association lists `List (Mono × ℚ)` with the
dictionary's key-uniqueness left implicit (lookups take the first match, as a
Python dict lookup would).  Real coefficients are idealized as `ℚ`.
Mutating loops over numpy arrays are embedded as left folds over the exact
iteration sequence of the Python loops, with functional updates.
Fallible operations (raised `ValueError`s, `max` on an empty sequence,
indexing an empty list) are embedded in `Except POPError`.
-/

namespace PolyOpt

/-- A monomial: the ordered tuple of exponents, one per decision variable. -/
abbrev Mono := List Nat

/-- A polynomial: a coefficient map, as an association list. -/
abbrev Poly := List (Mono × ℚ)

/-- A dense matrix, as a list of rows. -/
abbrev Mat := List (List ℚ)

/-- An affine matrix family: one matrix per monomial of the universe. -/
abbrev Fam := List Mat

/-- Modelled from the spec: helper for the monomial enumeration primitive
(`Polalg.generateVariablesUpDegree`, which is outside this core). All exponent
tuples of length `n` whose entries sum to exactly `s`, in a fixed
(lexicographic-by-first-entry) order. -/
def tuplesWithSum : Nat → Nat → List Mono
  | 0, 0 => [[]]
  | 0, _ + 1 => []
  | n + 1, s => (List.range (s + 1)).flatMap (fun k => (tuplesWithSum n (s - k)).map (fun t => k :: t))

/-- Modelled from the spec: the monomial enumeration primitive
(`Polalg.generateVariablesUpDegree(d, n)`, consumed by this core but defined
outside it).  Per its contract: the ordered sequence of every exponent tuple of
length `n` with entry-sum `≤ d`, first element the all-zero tuple, and a
deterministic order for fixed arguments (here: by total degree, then the order
of `tuplesWithSum`). -/
def generateVariablesUpDegree (d n : Nat) : List Mono :=
  (List.range (d + 1)).flatMap (fun s => tuplesWithSum n s)

/-- Functional update of the element at index `i` (out of range: unchanged);
the embedding of an assignment to a Python list / numpy array cell. -/
def modifyAt {α : Type} : List α → Nat → (α → α) → List α
  | [], _, _ => []
  | a :: as, 0, f => f a :: as
  | a :: as, i + 1, f => a :: modifyAt as i f

/-- `F[p][i, j] = v`: the embedding of a numpy cell assignment on a family. -/
def setCell (F : Fam) (p i j : Nat) (v : ℚ) : Fam :=
  modifyAt F p (fun M => modifyAt M i (fun r => r.set j v))

/-- `F[p][i, j] += v`: the embedding of a numpy cell accumulation. -/
def addCell (F : Fam) (p i j : Nat) (v : ℚ) : Fam :=
  modifyAt F p (fun M => modifyAt M i (fun r => r.set j (r.getD j 0 + v)))

/-- Read the cell `F[p][i, j]` (0 outside the allocated shape). -/
def entry (F : Fam) (p i j : Nat) : ℚ := ((F.getD p []).getD i []).getD j 0

/-- The iteration sequence of the nested loops
`for i in range(m): for j in range(i, m):` as an explicit list of pairs. -/
def pairsUpTo (m : Nat) : List (Nat × Nat) :=
  (List.range m).flatMap (fun i => (List.range' i (m - i)).map (fun j => (i, j)))

/-- The errors this core raises (Python `ValueError`s and the failures of
`max()` on an empty sequence and of indexing past the end of a list). -/
inductive POPError
  | invalidRelaxationOrder (minOrder : Nat)
  | emptyMaxArg
  | indexOutOfRange
  | insufficientSamples (required : Nat)
  | notSolvedYet
  deriving DecidableEq

/-- Python `max` on a list: fails on an empty sequence. -/
def pyMax (l : List Nat) : Except POPError Nat :=
  match l.max? with
  | some m => .ok m
  | none => .error .emptyMaxArg

/-- Python `f.get(key, 0)` on a coefficient dictionary. -/
def dictGet (f : Poly) (k : Mono) : ℚ :=
  match f.find? (fun mc => mc.1 == k) with
  | some mc => mc.2
  | none => 0

namespace POPSolver

/-- Body of the inner loop of `POPSolver.momentMatrix`: sum the two basis
exponent tuples elementwise (`tuple(sum(t) for t in zip(varUpD[i], varUpD[j]))`),
look the result up in `varUsed` (first matching index), and on success set the
two symmetric cells of matrix `pos` to 1. -/
def mmStep (varUpD varUsed : List Mono) (MM : Fam) (ij : Nat × Nat) : Fam :=
  let varCur := List.zipWith (· + ·) (varUpD.getD ij.1 []) (varUpD.getD ij.2 [])
  match varUsed.findIdx? (fun v => v == varCur) with
  | some pos => setCell (setCell MM pos ij.1 ij.2 1) pos ij.2 ij.1 1
  | none => MM

/-- `POPSolver.momentMatrix(d, varUsed)` (with `n = self.n`): the moment
matrix family.  `varUpD` is the basis at order `d`, the family holds
`len(varUsed)` zero matrices of dimension `dimM × dimM`, and the nested loops
`for i in range(dimM): for j in range(i, dimM):` are folded over their
iteration sequence `pairsUpTo dimM`. -/
def momentMatrix (n d : Nat) (varUsed : List Mono) : Fam :=
  let varUpD := generateVariablesUpDegree d n
  let dimM := varUpD.length
  let MM0 : Fam := List.replicate varUsed.length (List.replicate dimM (List.replicate dimM (0 : ℚ)))
  (pairsUpTo dimM).foldl (mmStep varUpD varUsed) MM0

/-- Body of the inner loop of `POPSolver.localizingMatrix`: sum the two basis
tuples and the constraint monomial elementwise
(`tuple(sum(t) for t in zip(varUpD[i], varUpD[j], mon))`), look the result up
in `varUsed`, and on success accumulate `coef` into cell `(i, j)` and, when
`i ≠ j`, into cell `(j, i)` of matrix `pos`. -/
def lmStep (varUpD varUsed : List Mono) (mon : Mono) (coef : ℚ) (LM : Fam) (ij : Nat × Nat) : Fam :=
  let varCur := List.zipWith3 (fun a b c => a + b + c) (varUpD.getD ij.1 []) (varUpD.getD ij.2 []) mon
  match varUsed.findIdx? (fun v => v == varCur) with
  | some pos =>
      let LM1 := addCell LM pos ij.1 ij.2 coef
      if ij.1 ≠ ij.2 then addCell LM1 pos ij.2 ij.1 coef else LM1
  | none => LM

/-- `POPSolver.localizingMatrix(d, varUsed, g)` (with `n = self.n`): the
localizing matrix family of the constraint polynomial `g`.  The outer loop
`for mon, coef in g.items()` folds over the association list `g`; the nested
index loops fold over `pairsUpTo dimM` as in `momentMatrix`. -/
def localizingMatrix (n d : Nat) (varUsed : List Mono) (g : Poly) : Fam :=
  let varUpD := generateVariablesUpDegree d n
  let dimM := varUpD.length
  let LM0 : Fam := List.replicate varUsed.length (List.replicate dimM (List.replicate dimM (0 : ℚ)))
  g.foldl (fun LM mc => (pairsUpTo dimM).foldl (lmStep varUpD varUsed mc.1 mc.2) LM) LM0

/-- `int(ceil(max([sum(k) for k in gi.keys()])/2))` for one constraint `gi`:
half the degree of `gi`, rounded up; fails when `gi` has no monomials. -/
def gDegHalf (gi : Poly) : Except POPError Nat :=
  match pyMax (gi.map (fun mc => mc.1.sum)) with
  | .error e => .error e
  | .ok m => .ok ((m + 1) / 2)

/-- The immutable data `POPSolver.__init__` computes and stores. -/
structure POPData where
  n : Nat
  d : Nat
  varUsed : List Mono
  MM : Fam
  LM : List Fam
  c : List ℚ
  deriving DecidableEq

/-- `POPSolver.__init__(f, g, d)`: validate the relaxation order against
`gDegsHalf = [int(ceil(max([sum(k) for k in gi.keys()])/2)) for gi in g]`
(raising when `max(gDegsHalf) > d`, with the message reporting that maximum);
infer `n = len(list(f.keys())[0])`; build the universe `varUsed` at degree
`2*d`, the moment matrix family, one localizing matrix family per constraint
at order `d - ri`, and the objective vector `c` with
`c[variable - 1] = f.get(varUsed[variable], 0)` for `variable = 1 .. len(varUsed) - 1`. -/
def init (f : Poly) (g : List Poly) (d : Nat) : Except POPError POPData :=
  match g.mapM gDegHalf with
  | .error e => .error e
  | .ok gDegsHalf =>
    match pyMax gDegsHalf with
    | .error e => .error e
    | .ok mx =>
      if mx > d then .error (.invalidRelaxationOrder mx)
      else
        match f with
        | [] => .error .indexOutOfRange
        | kv :: _ =>
          let n := kv.1.length
          let varUsed := generateVariablesUpDegree (2 * d) n
          let MM := momentMatrix n d varUsed
          let LM := (g.zip gDegsHalf).map (fun p => localizingMatrix n (d - p.2) varUsed p.1)
          let c := (List.range' 1 (varUsed.length - 1)).map (fun v => dictGet f (varUsed.getD v []))
          .ok ⟨n, d, varUsed, MM, LM, c⟩

/-- `POPSolver.solve(startPoint)`: the external SDP engine returns the moment
vector `y`; the solution extracted from it is `x = y[0:self.n, :]`.  The
engine is opaque, so `y` is a parameter here. -/
def solve (P : POPData) (y : List ℚ) : List ℚ := y.take P.n

/-- The inner accumulation of `POPSolver.getFeasiblePoint`:
`yTemp = 1; for j in range(0, self.n): yTemp *= x[j, 0]**alpha[j]`. -/
def monValue (n : Nat) (x : List ℚ) (alpha : Mono) : ℚ :=
  ((List.range n).map (fun j => x.getD j 0 ^ alpha.getD j 0)).prod

/-- `POPSolver.getFeasiblePoint(xs)`: raise unless at least
`N = comb(n + d, n)` sample points are given (the message reporting `N`);
otherwise return the empirical moment vector over
`usedVars = generateVariablesUpDegree(2 d)[1:]`: accumulate
`y[alpha] += prod_j x[j]^usedVars[alpha][j]` over the samples, then divide by
the sample count. -/
def getFeasiblePoint (P : POPData) (xs : List (List ℚ)) : Except POPError (List ℚ) :=
  let N := Nat.choose (P.n + P.d) P.n
  if xs.length < N then .error (.insufficientSamples N)
  else
    let usedVars := (generateVariablesUpDegree (2 * P.d) P.n).drop 1
    let y := usedVars.map (fun alpha => (xs.map (fun x => monValue P.n x alpha)).sum)
    .ok (y.map (fun v => v / (xs.length : ℚ)))

/-- Modelled from the spec: the observable state of the external SDP engine
(`SDPSolver`, outside this core): whether `solve` has been invoked, and the
list of matrix-family ranks it reports once solved. -/
structure SDPState where
  solved : Bool
  rankList : List Nat

/-- Modelled from the spec: `SDPSolver.ranks()`, which reports one rank per
affine matrix family after `solve`, and fails with the "not solved" condition
before `solve` has been invoked. -/
def ranks (s : SDPState) : Except POPError (List Nat) :=
  if s.solved then .ok s.rankList else .error .notSolvedYet

/-- `POPSolver.momentMatrixRank()`: `return self.SDP.ranks()[0]` — delegate to
the engine's `ranks` and take its first element (the moment matrix family is
the first family handed to the engine). -/
def momentMatrixRank (s : SDPState) : Except POPError Nat :=
  match ranks s with
  | .error e => .error e
  | .ok [] => .error .indexOutOfRange
  | .ok (a :: _) => .ok a

end POPSolver

end PolyOpt

/-! ### Basic lemmas about the functional array updates -/

namespace PolyOpt

theorem modifyAt_length {α : Type} (l : List α) (i : Nat) (f : α → α) :
    (modifyAt l i f).length = l.length := by
  induction l generalizing i with
  | nil => rfl
  | cons a as ih =>
    cases i with
    | zero => rfl
    | succ k => simp [modifyAt, ih]

theorem getD_modifyAt {α : Type} (l : List α) (i : Nat) (f : α → α) (k : Nat) (d : α) :
    (modifyAt l i f).getD k d =
      if k = i ∧ i < l.length then f (l.getD k d) else l.getD k d := by
  induction l generalizing i k with
  | nil => simp [modifyAt]
  | cons a as ih =>
    cases i with
    | zero =>
      cases k with
      | zero => simp [modifyAt]
      | succ k' => simp [modifyAt]
    | succ i' =>
      cases k with
      | zero => simp [modifyAt]
      | succ k' => simpa [modifyAt, Nat.succ_lt_succ_iff] using ih i' k'

theorem mem_modifyAt {α : Type} {l : List α} {i : Nat} {f : α → α} {x : α}
    (hx : x ∈ modifyAt l i f) : x ∈ l ∨ ∃ y ∈ l, x = f y := by
  induction l generalizing i with
  | nil => simp [modifyAt] at hx
  | cons a as ih =>
    cases i with
    | zero =>
      rcases (by simpa [modifyAt] using hx : x = f a ∨ x ∈ as) with h | h
      · exact Or.inr ⟨a, by simp, h⟩
      · exact Or.inl (by simp [h])
    | succ i' =>
      rcases (by simpa [modifyAt] using hx : x = a ∨ x ∈ modifyAt as i' f) with h | h
      · exact Or.inl (by simp [h])
      · rcases ih h with h' | ⟨y, hy, hxy⟩
        · exact Or.inl (by simp [h'])
        · exact Or.inr ⟨y, by simp [hy], hxy⟩

theorem getD_set' {α : Type} (l : List α) (i : Nat) (v : α) (k : Nat) (d : α) :
    (l.set i v).getD k d = if i = k ∧ i < l.length then v else l.getD k d := by
  rw [List.getD_eq_getElem?_getD, List.getD_eq_getElem?_getD, List.getElem?_set]
  by_cases hik : i = k
  · subst hik
    by_cases hlen : i < l.length
    · simp [hlen]
    · simp [hlen, List.getElem?_eq_none (Nat.le_of_not_lt hlen)]
  · simp [hik]

theorem getD_mem {α : Type} {l : List α} {k : Nat} (d : α) (h : k < l.length) :
    l.getD k d ∈ l := by
  rw [List.getD_eq_getElem l d h]
  exact List.getElem_mem h

theorem getD_replicate' {α : Type} (n : Nat) (a d : α) (k : Nat) :
    (List.replicate n a).getD k d = if k < n then a else d := by
  rw [List.getD_eq_getElem?_getD, List.getElem?_replicate]
  by_cases h : k < n <;> simp [h]

/-- Shape predicate for an affine matrix family: `K` matrices, each `m × m`. -/
def famShape (F : Fam) (K m : Nat) : Prop :=
  F.length = K ∧ ∀ M ∈ F, M.length = m ∧ ∀ r ∈ M, r.length = m

theorem famShape_replicate (K m : Nat) :
    famShape (List.replicate K (List.replicate m (List.replicate m (0 : ℚ)))) K m := by
  refine ⟨by simp, ?_⟩
  intro M hM
  rw [List.eq_of_mem_replicate hM]
  exact ⟨by simp, fun r hr => by rw [List.eq_of_mem_replicate hr]; simp⟩

theorem entry_replicate_zero (K m : Nat) (p i j : Nat) :
    entry (List.replicate K (List.replicate m (List.replicate m (0 : ℚ)))) p i j = 0 := by
  unfold entry
  rw [getD_replicate']
  by_cases hp : p < K
  · rw [if_pos hp, getD_replicate']
    by_cases hi : i < m
    · rw [if_pos hi, getD_replicate']
      by_cases hj : j < m <;> simp [hj]
    · simp [hi]
  · simp [hp]

theorem entry_zero_of_famShape {F : Fam} {K m : Nat} (h : famShape F K m)
    (p i j : Nat) (hout : K ≤ p ∨ m ≤ i ∨ m ≤ j) : entry F p i j = 0 := by
  obtain ⟨hlen, hM⟩ := h
  unfold entry
  by_cases hp : p < K
  · obtain ⟨hMlen, hrow⟩ := hM _ (getD_mem (l := F) (k := p) [] (by omega))
    by_cases hi : i < m
    · have hj : m ≤ j := by rcases hout with h | h | h <;> omega
      have hrl : ((F.getD p []).getD i []).length = m :=
        hrow _ (getD_mem (l := F.getD p []) (k := i) [] (by omega))
      rw [List.getD_eq_default ((F.getD p []).getD i []) 0 (by omega)]
    · rw [List.getD_eq_default (F.getD p []) [] (by omega), List.getD_nil]
  · rw [List.getD_eq_default F [] (by omega), List.getD_nil, List.getD_nil]

theorem famShape_cellUpdate {F : Fam} {K m : Nat} (p i : Nat)
    (rowf : List ℚ → List ℚ) (hrow : ∀ r, (rowf r).length = r.length)
    (h : famShape F K m) :
    famShape (modifyAt F p (fun M => modifyAt M i rowf)) K m := by
  obtain ⟨hlen, hM⟩ := h
  refine ⟨by rw [modifyAt_length, hlen], ?_⟩
  intro M hMmem
  rcases mem_modifyAt hMmem with hM' | ⟨y, hy, rfl⟩
  · exact hM M hM'
  · obtain ⟨hylen, hyr⟩ := hM y hy
    refine ⟨by rw [modifyAt_length, hylen], ?_⟩
    intro r hr
    rcases mem_modifyAt hr with h1 | ⟨r0, hr0, rfl⟩
    · exact hyr r h1
    · rw [hrow r0]; exact hyr r0 hr0

theorem famShape_setCell {F : Fam} {K m : Nat} (p i j : Nat) (v : ℚ)
    (h : famShape F K m) : famShape (setCell F p i j v) K m :=
  famShape_cellUpdate p i _ (fun r => by simp) h

theorem famShape_addCell {F : Fam} {K m : Nat} (p i j : Nat) (v : ℚ)
    (h : famShape F K m) : famShape (addCell F p i j v) K m :=
  famShape_cellUpdate p i _ (fun r => by simp) h

theorem entry_setCell_self {F : Fam} {K m : Nat} (h : famShape F K m)
    {p i j : Nat} (hp : p < K) (hi : i < m) (hj : j < m) (v : ℚ) :
    entry (setCell F p i j v) p i j = v := by
  obtain ⟨hlen, hM⟩ := h
  obtain ⟨hMlen, hrow⟩ := hM _ (getD_mem (l := F) (k := p) [] (by omega))
  have hrl : ((F.getD p []).getD i []).length = m :=
    hrow _ (getD_mem (l := F.getD p []) (k := i) [] (by omega))
  unfold entry setCell
  rw [getD_modifyAt, if_pos ⟨rfl, by omega⟩, getD_modifyAt, if_pos ⟨rfl, by omega⟩,
    getD_set', if_pos ⟨rfl, by omega⟩]

theorem entry_setCell_of_ne {F : Fam} {p i j p' i' j' : Nat} (v : ℚ)
    (h : ¬(p' = p ∧ i' = i ∧ j' = j)) :
    entry (setCell F p i j v) p' i' j' = entry F p' i' j' := by
  unfold entry setCell
  rw [getD_modifyAt]
  by_cases hp : p' = p ∧ p < F.length
  · rw [if_pos hp, getD_modifyAt]
    by_cases hi : i' = i ∧ i < (F.getD p' []).length
    · rw [if_pos hi, getD_set']
      have hj : ¬(j = j') := by
        intro hj; exact h ⟨hp.1, hi.1, hj.symm⟩
      rw [if_neg (by tauto)]
    · rw [if_neg hi]
  · rw [if_neg hp]

theorem entry_addCell_self {F : Fam} {K m : Nat} (h : famShape F K m)
    {p i j : Nat} (hp : p < K) (hi : i < m) (hj : j < m) (v : ℚ) :
    entry (addCell F p i j v) p i j = entry F p i j + v := by
  obtain ⟨hlen, hM⟩ := h
  obtain ⟨hMlen, hrow⟩ := hM _ (getD_mem (l := F) (k := p) [] (by omega))
  have hrl : ((F.getD p []).getD i []).length = m :=
    hrow _ (getD_mem (l := F.getD p []) (k := i) [] (by omega))
  unfold entry addCell
  rw [getD_modifyAt, if_pos ⟨rfl, by omega⟩, getD_modifyAt, if_pos ⟨rfl, by omega⟩,
    getD_set', if_pos ⟨rfl, by omega⟩]

theorem entry_addCell_of_ne {F : Fam} {p i j p' i' j' : Nat} (v : ℚ)
    (h : ¬(p' = p ∧ i' = i ∧ j' = j)) :
    entry (addCell F p i j v) p' i' j' = entry F p' i' j' := by
  unfold entry addCell
  rw [getD_modifyAt]
  by_cases hp : p' = p ∧ p < F.length
  · rw [if_pos hp, getD_modifyAt]
    by_cases hi : i' = i ∧ i < (F.getD p' []).length
    · rw [if_pos hi, getD_set']
      have hj : ¬(j = j') := by
        intro hj; exact h ⟨hp.1, hi.1, hj.symm⟩
      rw [if_neg (by tauto)]
    · rw [if_neg hi]
  · rw [if_neg hp]

end PolyOpt

/-! ### The loop iteration sequence, first-index lookup, and the monomial basis -/

namespace PolyOpt

theorem mem_pairsUpTo {m i j : Nat} : (i, j) ∈ pairsUpTo m ↔ i ≤ j ∧ j < m := by
  unfold pairsUpTo
  rw [List.mem_flatMap]
  constructor
  · rintro ⟨a, ha, hmem⟩
    rw [List.mem_map] at hmem
    obtain ⟨b, hb, heq⟩ := hmem
    rw [List.mem_range] at ha
    rw [List.mem_range'] at hb
    obtain ⟨k, hk, rfl⟩ := hb
    cases heq
    constructor <;> omega
  · rintro ⟨hij, hjm⟩
    exact ⟨i, List.mem_range.mpr (by omega),
      List.mem_map.mpr ⟨j, List.mem_range'.mpr ⟨j - i, by omega, by omega⟩, rfl⟩⟩

theorem nodup_pairsUpTo (m : Nat) : (pairsUpTo m).Nodup := by
  unfold pairsUpTo
  rw [List.nodup_flatMap]
  refine ⟨fun i _ => ?_, ?_⟩
  · exact (List.nodup_range' _ _).map (fun a b h => by simpa using h)
  · refine (List.nodup_range m).imp ?_
    intro a b hab
    simp only [Function.onFun, List.Disjoint]
    intro x hxa hxb
    rw [List.mem_map] at hxa hxb
    obtain ⟨ja, _, rfl⟩ := hxa
    obtain ⟨jb, _, hx⟩ := hxb
    exact hab (congrArg Prod.fst hx).symm

theorem findIdx?_some_aux {α : Type} [BEq α] {l : List α} {p : α → Bool} {s r : Nat}
    (h : l.findIdx? p s = some r) : ∃ k, r = s + k ∧ ∃ w, l[k]? = some w ∧ p w = true := by
  induction l generalizing s with
  | nil => simp [List.findIdx?] at h
  | cons a as ih =>
    rw [List.findIdx?_cons] at h
    by_cases hpa : p a = true
    · rw [if_pos hpa] at h
      obtain rfl : s = r := by simpa using h
      exact ⟨0, by omega, a, by simp, hpa⟩
    · rw [if_neg hpa] at h
      obtain ⟨k, hk, w, hw, hpw⟩ := ih h
      exact ⟨k + 1, by omega, w, by simpa using hw, hpw⟩

theorem findIdx?_beq_aux {l : List Mono} (hnd : l.Nodup) {pos : Nat} {v : Mono}
    (h : l[pos]? = some v) (s : Nat) :
    l.findIdx? (fun x => x == v) s = some (s + pos) := by
  induction l generalizing pos s with
  | nil => simp at h
  | cons a as ih =>
    rw [List.findIdx?_cons]
    cases pos with
    | zero =>
      obtain rfl : a = v := by simpa using h
      simp
    | succ k =>
      rw [List.getElem?_cons_succ] at h
      have hvas : v ∈ as := List.getElem?_mem h
      have hne : (a == v) = false := by
        rw [beq_eq_false_iff_ne]
        rintro rfl
        exact (List.nodup_cons.mp hnd).1 hvas
      rw [hne]
      simp only [Bool.false_eq_true, if_false]
      rw [ih (List.nodup_cons.mp hnd).2 h (s + 1)]
      congr 1
      omega

theorem findIdx?_beq_of_getElem? {l : List Mono} (hnd : l.Nodup) {pos : Nat} {v : Mono}
    (h : l[pos]? = some v) : l.findIdx? (fun x => x == v) = some pos := by
  simpa using findIdx?_beq_aux hnd h 0

theorem findIdx?_beq_eq_none {l : List Mono} {v : Mono} (h : v ∉ l) (s : Nat) :
    l.findIdx? (fun x => x == v) s = none := by
  induction l generalizing s with
  | nil => simp [List.findIdx?]
  | cons a as ih =>
    rw [List.findIdx?_cons]
    have hne : (a == v) = false := by
      rw [beq_eq_false_iff_ne]
      rintro rfl
      exact h (by simp)
    rw [hne]
    simp only [Bool.false_eq_true, if_false]
    exact ih (fun hv => h (by simp [hv])) (s + 1)

theorem getElem?_of_findIdx?_beq {l : List Mono} {v : Mono} {pos : Nat}
    (h : l.findIdx? (fun x => x == v) = some pos) : l[pos]? = some v := by
  obtain ⟨k, hk, w, hw, hpw⟩ := findIdx?_some_aux h
  obtain rfl : w = v := by simpa using hpw
  obtain rfl : pos = k := by omega
  exact hw

theorem tuplesWithSum_zero (n : Nat) : tuplesWithSum n 0 = [List.replicate n 0] := by
  induction n with
  | zero => rfl
  | succ n ih => simp [tuplesWithSum, ih, List.replicate_succ, List.range_succ_eq_map]

theorem mem_tuplesWithSum {n : Nat} : ∀ {s : Nat} {t : Mono},
    t ∈ tuplesWithSum n s ↔ t.length = n ∧ t.sum = s := by
  induction n with
  | zero =>
    intro s t
    cases s with
    | zero =>
      simp only [tuplesWithSum, List.mem_singleton]
      constructor
      · rintro rfl; simp
      · rintro ⟨hl, _⟩; exact List.length_eq_zero.mp hl
    | succ s =>
      simp only [tuplesWithSum, List.not_mem_nil, false_iff, not_and]
      intro hl
      rw [List.length_eq_zero.mp hl]
      simp
  | succ n ih =>
    intro s t
    simp only [tuplesWithSum, List.mem_flatMap, List.mem_range, List.mem_map]
    constructor
    · rintro ⟨k, hk, u, hu, rfl⟩
      obtain ⟨hlen, hsum⟩ := ih.mp hu
      refine ⟨by simp [hlen], ?_⟩
      rw [List.sum_cons, hsum]
      omega
    · rintro ⟨hlen, hsum⟩
      cases t with
      | nil => simp at hlen
      | cons h u =>
        rw [List.sum_cons] at hsum
        exact ⟨h, by omega, u, ih.mpr ⟨by simpa using hlen, by omega⟩, rfl⟩

theorem nodup_tuplesWithSum (n : Nat) : ∀ s : Nat, (tuplesWithSum n s).Nodup := by
  induction n with
  | zero => intro s; cases s <;> simp [tuplesWithSum]
  | succ n ih =>
    intro s
    rw [tuplesWithSum, List.nodup_flatMap]
    refine ⟨fun k _ => (ih _).map (fun a b h => by simpa using h), ?_⟩
    refine (List.nodup_range (s + 1)).imp ?_
    intro a b hab
    simp only [Function.onFun, List.Disjoint]
    intro x hxa hxb
    rw [List.mem_map] at hxa hxb
    obtain ⟨ua, _, rfl⟩ := hxa
    obtain ⟨ub, _, hx⟩ := hxb
    injection hx with h1 _
    exact hab h1.symm

theorem mem_generateVariablesUpDegree {d n : Nat} {t : Mono} :
    t ∈ generateVariablesUpDegree d n ↔ t.length = n ∧ t.sum ≤ d := by
  unfold generateVariablesUpDegree
  rw [List.mem_flatMap]
  constructor
  · rintro ⟨s, hs, ht⟩
    obtain ⟨hl, hsum⟩ := mem_tuplesWithSum.mp ht
    rw [List.mem_range] at hs
    exact ⟨hl, by omega⟩
  · rintro ⟨hl, hsum⟩
    exact ⟨t.sum, List.mem_range.mpr (by omega), mem_tuplesWithSum.mpr ⟨hl, rfl⟩⟩

theorem nodup_generateVariablesUpDegree (d n : Nat) :
    (generateVariablesUpDegree d n).Nodup := by
  unfold generateVariablesUpDegree
  rw [List.nodup_flatMap]
  refine ⟨fun s _ => nodup_tuplesWithSum n s, ?_⟩
  refine (List.nodup_range (d + 1)).imp ?_
  intro a b hab
  simp only [Function.onFun, List.Disjoint]
  intro x hxa hxb
  exact hab ((mem_tuplesWithSum.mp hxa).2.symm.trans (mem_tuplesWithSum.mp hxb).2)

theorem generateVariablesUpDegree_eq_cons (d n : Nat) :
    ∃ rest, generateVariablesUpDegree d n = List.replicate n 0 :: rest := by
  unfold generateVariablesUpDegree
  rw [List.range_succ_eq_map, List.flatMap_cons, tuplesWithSum_zero]
  exact ⟨_, rfl⟩

end PolyOpt

/-! ### Entry-level characterization of the moment matrix assembly loops -/

namespace PolyOpt

/-- The elementwise sum `tuple(sum(t) for t in zip(varUpD[i], varUpD[j]))`. -/
def combo (varUpD : List Mono) (i j : Nat) : Mono :=
  List.zipWith (· + ·) (varUpD.getD i []) (varUpD.getD j [])

/-- The elementwise sum `tuple(sum(t) for t in zip(varUpD[i], varUpD[j], mon))`. -/
def combo3 (varUpD : List Mono) (i j : Nat) (mon : Mono) : Mono :=
  List.zipWith3 (fun a b c => a + b + c) (varUpD.getD i []) (varUpD.getD j []) mon

theorem findIdx?_lt_length {l : List Mono} {pred : Mono → Bool} {p : Nat}
    (h : l.findIdx? pred = some p) : p < l.length := by
  obtain ⟨k, hk, w, hw, _⟩ := findIdx?_some_aux h
  obtain ⟨hlt, _⟩ := List.getElem?_eq_some_iff.mp hw
  omega

namespace POPSolver

theorem famShape_mmStep {varUpD varUsed : List Mono} {F : Fam} {K m : Nat}
    (h : famShape F K m) (ij : Nat × Nat) :
    famShape (mmStep varUpD varUsed F ij) K m := by
  simp only [mmStep]
  cases hfi : varUsed.findIdx? (fun v => v == List.zipWith (· + ·) (varUpD.getD ij.1 []) (varUpD.getD ij.2 [])) with
  | none => exact h
  | some pos => exact famShape_setCell _ _ _ _ (famShape_setCell _ _ _ _ h)

theorem entry_mmStep {varUpD varUsed : List Mono} {F : Fam} {K m : Nat}
    (hsh : famShape F K m) (hK : varUsed.length = K)
    {i j : Nat} (hij : i ≤ j) (hjm : j < m) (a b p : Nat) :
    entry (mmStep varUpD varUsed F (i, j)) p a b =
      if ((a = i ∧ b = j) ∨ (a = j ∧ b = i)) ∧
          varUsed.findIdx? (fun v => v == combo varUpD i j) = some p
      then 1 else entry F p a b := by
  simp only [mmStep]
  cases hfi : varUsed.findIdx? (fun v => v == List.zipWith (· + ·) (varUpD.getD i []) (varUpD.getD j [])) with
  | none =>
    rw [if_neg]
    rintro ⟨-, hsome⟩
    rw [show combo varUpD i j = List.zipWith (· + ·) (varUpD.getD i []) (varUpD.getD j []) from rfl] at hsome
    rw [hfi] at hsome
    exact Option.noConfusion hsome
  | some pos =>
    have hposK : pos < K := hK ▸ findIdx?_lt_length hfi
    have hfi' : varUsed.findIdx? (fun v => v == combo varUpD i j) = some pos := hfi
    show entry (setCell (setCell F pos i j 1) pos j i 1) p a b =
      if ((a = i ∧ b = j) ∨ (a = j ∧ b = i)) ∧
          varUsed.findIdx? (fun v => v == combo varUpD i j) = some p
      then 1 else entry F p a b
    by_cases hp : p = pos
    · subst hp
      by_cases hab : (a = i ∧ b = j) ∨ (a = j ∧ b = i)
      · rw [if_pos ⟨hab, hfi'⟩]
        rcases hab with ⟨rfl, rfl⟩ | ⟨rfl, rfl⟩
        · by_cases hieqj : a = b
          · subst hieqj
            exact entry_setCell_self (famShape_setCell _ _ _ _ hsh) hposK (by omega) (by omega) 1
          · rw [entry_setCell_of_ne 1 (by tauto)]
            exact entry_setCell_self hsh hposK (by omega) (by omega) 1
        · exact entry_setCell_self (famShape_setCell _ _ _ _ hsh) hposK (by omega) (by omega) 1
      · rw [if_neg (by tauto)]
        rw [entry_setCell_of_ne 1 (by tauto), entry_setCell_of_ne 1 (by tauto)]
    · have hne : ¬(((a = i ∧ b = j) ∨ (a = j ∧ b = i)) ∧
          varUsed.findIdx? (fun v => v == combo varUpD i j) = some p) := by
        rintro ⟨-, hsome⟩
        rw [hfi'] at hsome
        injection hsome with heq
        exact hp heq.symm
      rw [if_neg hne]
      rw [entry_setCell_of_ne 1 (fun hcon => hp hcon.1), entry_setCell_of_ne 1 (fun hcon => hp hcon.1)]

end POPSolver

end PolyOpt

namespace PolyOpt

namespace POPSolver

theorem famShape_foldl_mmStep {varUpD varUsed : List Mono} {K m : Nat}
    (L : List (Nat × Nat)) (F : Fam) (hsh : famShape F K m) :
    famShape (L.foldl (mmStep varUpD varUsed) F) K m := by
  induction L generalizing F with
  | nil => exact hsh
  | cons q L ih => exact ih _ (famShape_mmStep hsh q)

theorem entry_foldl_mmStep {varUpD varUsed : List Mono} {K m : Nat}
    (hK : varUsed.length = K) :
    ∀ (L : List (Nat × Nat)) (F : Fam), famShape F K m →
    (∀ q ∈ L, q.1 ≤ q.2 ∧ q.2 < m) → ∀ a b p, a < m → b < m →
    entry (L.foldl (mmStep varUpD varUsed) F) p a b =
      if (min a b, max a b) ∈ L ∧
          varUsed.findIdx? (fun v => v == combo varUpD (min a b) (max a b)) = some p
      then 1 else entry F p a b := by
  intro L
  induction L with
  | nil =>
    intro F _ _ a b p _ _
    simp
  | cons q L ih =>
    intro F hsh hall a b p ham hbm
    obtain ⟨i, j⟩ := q
    have hij := (hall (i, j) (by simp)).1
    have hjm := (hall (i, j) (by simp)).2
    rw [List.foldl_cons]
    rw [ih (mmStep varUpD varUsed F (i, j)) (famShape_mmStep hsh _)
      (fun q hq => hall q (by simp [hq])) a b p ham hbm]
    rw [entry_mmStep hsh hK hij hjm a b p]
    by_cases hFfi : varUsed.findIdx? (fun v => v == combo varUpD (min a b) (max a b)) = some p
    · by_cases hmem : (min a b, max a b) ∈ L
      · simp [hmem, hFfi]
      · by_cases hhead : (min a b, max a b) = (i, j)
        · have hmin : min a b = i := congrArg Prod.fst hhead
          have hmax : max a b = j := congrArg Prod.snd hhead
          have hGfi : varUsed.findIdx? (fun v => v == combo varUpD i j) = some p := by
            rw [← hmin, ← hmax]; exact hFfi
          have hposm : (a = i ∧ b = j) ∨ (a = j ∧ b = i) := by omega
          simp [hmem, hFfi, hhead, hGfi, hposm]
        · have hposm : ¬((a = i ∧ b = j) ∨ (a = j ∧ b = i)) := by
            intro hcon
            apply hhead
            have h1 : min a b = i := by omega
            have h2 : max a b = j := by omega
            rw [h1, h2]
          simp [hmem, hFfi, hhead, hposm]
    · by_cases hposm : (a = i ∧ b = j) ∨ (a = j ∧ b = i)
      · have h1 : min a b = i := by omega
        have h2 : max a b = j := by omega
        have hGfi : ¬(varUsed.findIdx? (fun v => v == combo varUpD i j) = some p) := by
          rw [← h1, ← h2]; exact hFfi
        simp [hFfi, hposm, hGfi]
      · simp [hFfi, hposm]

theorem famShape_momentMatrix (n d : Nat) (varUsed : List Mono) :
    famShape (momentMatrix n d varUsed) varUsed.length
      (generateVariablesUpDegree d n).length := by
  unfold momentMatrix
  exact famShape_foldl_mmStep _ _ (famShape_replicate _ _)

theorem entry_momentMatrix (n d : Nat) (varUsed : List Mono) (a b p : Nat)
    (ham : a < (generateVariablesUpDegree d n).length)
    (hbm : b < (generateVariablesUpDegree d n).length) :
    entry (momentMatrix n d varUsed) p a b =
      if varUsed.findIdx?
          (fun v => v == combo (generateVariablesUpDegree d n) (min a b) (max a b)) = some p
      then 1 else 0 := by
  unfold momentMatrix
  rw [entry_foldl_mmStep rfl (pairsUpTo _) _ (famShape_replicate _ _)
    (fun q hq => by obtain ⟨x, y⟩ := q; exact mem_pairsUpTo.mp hq) a b p ham hbm]
  have hmem : (min a b, max a b) ∈ pairsUpTo (generateVariablesUpDegree d n).length :=
    mem_pairsUpTo.mpr ⟨by omega, by omega⟩
  rw [entry_replicate_zero]
  by_cases hfi : varUsed.findIdx?
      (fun v => v == combo (generateVariablesUpDegree d n) (min a b) (max a b)) = some p
  · simp [hmem, hfi]
  · simp [hmem, hfi]

end POPSolver

end PolyOpt

/-! ### Entry-level characterization of the localizing matrix assembly loops -/

namespace PolyOpt

namespace POPSolver

theorem famShape_lmStep {varUpD varUsed : List Mono} {mon : Mono} {coef : ℚ}
    {F : Fam} {K m : Nat} (h : famShape F K m) (ij : Nat × Nat) :
    famShape (lmStep varUpD varUsed mon coef F ij) K m := by
  simp only [lmStep]
  cases hfi : varUsed.findIdx? (fun v => v == List.zipWith3 (fun a b c => a + b + c)
      (varUpD.getD ij.1 []) (varUpD.getD ij.2 []) mon) with
  | none => exact h
  | some pos =>
    by_cases hij : ij.1 ≠ ij.2
    · simp only [if_pos hij]
      exact famShape_addCell _ _ _ _ (famShape_addCell _ _ _ _ h)
    · simp only [if_neg hij]
      exact famShape_addCell _ _ _ _ h

theorem entry_lmStep {varUpD varUsed : List Mono} {mon : Mono} {coef : ℚ}
    {F : Fam} {K m : Nat} (hsh : famShape F K m) (hK : varUsed.length = K)
    {i j : Nat} (him : i < m) (hjm : j < m) (a b p : Nat) :
    entry (lmStep varUpD varUsed mon coef F (i, j)) p a b =
      entry F p a b +
        (if ((a = i ∧ b = j) ∨ (a = j ∧ b = i ∧ i ≠ j)) ∧
            varUsed.findIdx? (fun v => v == combo3 varUpD i j mon) = some p
        then coef else 0) := by
  simp only [lmStep]
  cases hfi : varUsed.findIdx? (fun v => v == List.zipWith3 (fun a b c => a + b + c)
      (varUpD.getD i []) (varUpD.getD j []) mon) with
  | none =>
    rw [if_neg, add_zero]
    rintro ⟨-, hsome⟩
    rw [show combo3 varUpD i j mon = List.zipWith3 (fun a b c => a + b + c)
      (varUpD.getD i []) (varUpD.getD j []) mon from rfl, hfi] at hsome
    exact Option.noConfusion hsome
  | some pos =>
    have hposK : pos < K := hK ▸ findIdx?_lt_length hfi
    have hfi' : varUsed.findIdx? (fun v => v == combo3 varUpD i j mon) = some pos := hfi
    show entry (if i ≠ j then addCell (addCell F pos i j coef) pos j i coef
        else addCell F pos i j coef) p a b = _
    by_cases hij : i ≠ j
    · rw [if_pos hij]
      by_cases hp : p = pos
      · subst hp
        by_cases hab1 : a = i ∧ b = j
        · obtain ⟨rfl, rfl⟩ := hab1
          rw [entry_addCell_of_ne coef (by tauto)]
          rw [entry_addCell_self hsh hposK him hjm coef]
          rw [if_pos ⟨by tauto, hfi'⟩]
        · by_cases hab2 : a = j ∧ b = i
          · obtain ⟨rfl, rfl⟩ := hab2
            rw [entry_addCell_self (famShape_addCell _ _ _ _ hsh) hposK hjm him coef]
            rw [entry_addCell_of_ne coef (by tauto)]
            rw [if_pos ⟨by tauto, hfi'⟩]
          · rw [entry_addCell_of_ne coef (by tauto), entry_addCell_of_ne coef (by tauto)]
            rw [if_neg (by tauto), add_zero]
      · rw [entry_addCell_of_ne coef (fun hcon => hp hcon.1),
          entry_addCell_of_ne coef (fun hcon => hp hcon.1)]
        rw [if_neg, add_zero]
        rintro ⟨-, hsome⟩
        rw [hfi'] at hsome
        injection hsome with heq
        exact hp heq.symm
    · rw [if_neg hij]
      rw [not_not] at hij
      subst hij
      by_cases hp : p = pos
      · subst hp
        by_cases hab : a = i ∧ b = i
        · obtain ⟨rfl, rfl⟩ := hab
          rw [entry_addCell_self hsh hposK him him coef]
          rw [if_pos ⟨by tauto, hfi'⟩]
        · rw [entry_addCell_of_ne coef (by tauto)]
          rw [if_neg (by tauto), add_zero]
      · rw [entry_addCell_of_ne coef (fun hcon => hp hcon.1)]
        rw [if_neg, add_zero]
        rintro ⟨-, hsome⟩
        rw [hfi'] at hsome
        injection hsome with heq
        exact hp heq.symm

end POPSolver

end PolyOpt

namespace PolyOpt

namespace POPSolver

theorem famShape_foldl_lmStep {varUpD varUsed : List Mono} {mon : Mono} {coef : ℚ} {K m : Nat}
    (L : List (Nat × Nat)) (F : Fam) (hsh : famShape F K m) :
    famShape (L.foldl (lmStep varUpD varUsed mon coef) F) K m := by
  induction L generalizing F with
  | nil => exact hsh
  | cons q L ih => exact ih _ (famShape_lmStep hsh q)

theorem entry_foldl_lmStep {varUpD varUsed : List Mono} {mon : Mono} {coef : ℚ} {K m : Nat}
    (hK : varUsed.length = K) :
    ∀ (L : List (Nat × Nat)) (F : Fam), famShape F K m →
    (∀ q ∈ L, q.1 ≤ q.2 ∧ q.2 < m) → L.Nodup → ∀ a b p, a < m → b < m →
    entry (L.foldl (lmStep varUpD varUsed mon coef) F) p a b =
      entry F p a b +
        (if (min a b, max a b) ∈ L ∧
            varUsed.findIdx? (fun v => v == combo3 varUpD (min a b) (max a b) mon) = some p
        then coef else 0) := by
  intro L
  induction L with
  | nil =>
    intro F _ _ _ a b p _ _
    simp
  | cons q L ih =>
    intro F hsh hall hnd a b p ham hbm
    obtain ⟨i, j⟩ := q
    have hij := (hall (i, j) (by simp)).1
    have hjm := (hall (i, j) (by simp)).2
    rw [List.foldl_cons]
    rw [ih (lmStep varUpD varUsed mon coef F (i, j)) (famShape_lmStep hsh _)
      (fun q hq => hall q (by simp [hq])) (List.nodup_cons.mp hnd).2 a b p ham hbm]
    rw [entry_lmStep hsh hK (by omega) hjm a b p]
    by_cases hhead : (min a b, max a b) = (i, j)
    · have hmin : min a b = i := congrArg Prod.fst hhead
      have hmax : max a b = j := congrArg Prod.snd hhead
      have hmemL : (i, j) ∉ L := (List.nodup_cons.mp hnd).1
      have hposm : (a = i ∧ b = j) ∨ (a = j ∧ b = i ∧ i ≠ j) := by omega
      rw [hmin, hmax]
      by_cases hGfi : varUsed.findIdx? (fun v => v == combo3 varUpD i j mon) = some p
      · simp [hmemL, hGfi, hposm]
      · simp [hmemL, hGfi]
    · have hposm : ¬((a = i ∧ b = j) ∨ (a = j ∧ b = i ∧ i ≠ j)) := by
        intro hcon
        apply hhead
        have h1 : min a b = i := by omega
        have h2 : max a b = j := by omega
        rw [h1, h2]
      by_cases hmem : (min a b, max a b) ∈ L <;>
        simp [hmem, hposm, hhead, List.mem_cons, add_comm, add_left_comm]

theorem famShape_foldl_lmPoly {varUpD varUsed : List Mono} {K m : Nat}
    (P : List (Nat × Nat)) :
    ∀ (g : Poly) (F : Fam), famShape F K m →
    famShape (g.foldl (fun LM mc => P.foldl (lmStep varUpD varUsed mc.1 mc.2) LM) F) K m := by
  intro g
  induction g with
  | nil => exact fun F h => h
  | cons mc g ih =>
    intro F hsh
    exact ih _ (famShape_foldl_lmStep _ _ hsh)

theorem entry_foldl_lmPoly {varUpD varUsed : List Mono} {K m : Nat}
    (hK : varUsed.length = K) :
    ∀ (g : Poly) (F : Fam), famShape F K m → ∀ a b p, a < m → b < m →
    entry (g.foldl (fun LM mc => (pairsUpTo m).foldl (lmStep varUpD varUsed mc.1 mc.2) LM) F) p a b =
      entry F p a b +
        (g.map (fun mc =>
          if varUsed.findIdx?
              (fun v => v == combo3 varUpD (min a b) (max a b) mc.1) = some p
          then mc.2 else 0)).sum := by
  intro g
  induction g with
  | nil =>
    intro F _ a b p _ _
    simp
  | cons mc g ih =>
    intro F hsh a b p ham hbm
    rw [List.foldl_cons, List.map_cons, List.sum_cons]
    rw [ih _ (famShape_foldl_lmStep _ _ hsh) a b p ham hbm]
    rw [entry_foldl_lmStep hK _ _ hsh
      (fun q hq => by obtain ⟨x, y⟩ := q; exact mem_pairsUpTo.mp hq)
      (nodup_pairsUpTo _) a b p ham hbm]
    have hmem : (min a b, max a b) ∈ pairsUpTo m := mem_pairsUpTo.mpr ⟨by omega, by omega⟩
    by_cases hfi : varUsed.findIdx?
        (fun v => v == combo3 varUpD (min a b) (max a b) mc.1) = some p
    · simp [hmem, hfi]
      ring
    · simp [hmem, hfi]

theorem famShape_localizingMatrix (n d : Nat) (varUsed : List Mono) (g : Poly) :
    famShape (localizingMatrix n d varUsed g) varUsed.length
      (generateVariablesUpDegree d n).length := by
  simp only [localizingMatrix]
  exact famShape_foldl_lmPoly _ _ _ (famShape_replicate _ _)

theorem entry_localizingMatrix (n d : Nat) (varUsed : List Mono) (g : Poly) (a b p : Nat)
    (ham : a < (generateVariablesUpDegree d n).length)
    (hbm : b < (generateVariablesUpDegree d n).length) :
    entry (localizingMatrix n d varUsed g) p a b =
      (g.map (fun mc =>
        if varUsed.findIdx?
            (fun v => v == combo3 (generateVariablesUpDegree d n) (min a b) (max a b) mc.1) = some p
        then mc.2 else 0)).sum := by
  simp only [localizingMatrix]
  rw [entry_foldl_lmPoly rfl g _ (famShape_replicate _ _) a b p ham hbm]
  rw [entry_replicate_zero, zero_add]

end POPSolver

end PolyOpt

/-! ### Characterization of construction (`__init__`) -/

namespace PolyOpt

namespace POPSolver

/-- Total counterpart of `gDegHalf` on a non-empty constraint:
`⌈deg(gi)/2⌉` with `deg` the largest monomial degree of `gi`. -/
def degHalfN (gi : Poly) : Nat :=
  ((gi.map (fun mc => mc.1.sum)).max?.getD 0 + 1) / 2

/-- `max_i ⌈deg(g_i)/2⌉`: the minimum acceptable relaxation order. -/
def minOrder (g : List Poly) : Nat :=
  ((g.map degHalfN).max?).getD 0

theorem gDegHalf_eq {gi : Poly} (h : gi ≠ []) : gDegHalf gi = .ok (degHalfN gi) := by
  unfold gDegHalf pyMax degHalfN
  cases hmax : (gi.map (fun mc => mc.1.sum)).max? with
  | none =>
    exfalso
    rw [List.max?_eq_none_iff, List.map_eq_nil_iff] at hmax
    exact h hmax
  | some M => simp

theorem mapM_gDegHalf {g : List Poly} (h : ∀ gi ∈ g, gi ≠ []) :
    g.mapM gDegHalf = .ok (g.map degHalfN) := by
  induction g with
  | nil => rfl
  | cons gi g ih =>
    rw [List.mapM_cons, gDegHalf_eq (h gi (by simp)), ih (fun x hx => h x (by simp [hx]))]
    rfl

theorem pyMax_map_degHalfN {g : List Poly} (hg : g ≠ []) :
    pyMax (g.map degHalfN) = .ok (minOrder g) := by
  unfold pyMax minOrder
  cases hmax : (g.map degHalfN).max? with
  | none =>
    exfalso
    rw [List.max?_eq_none_iff, List.map_eq_nil_iff] at hmax
    exact hg hmax
  | some M => simp

theorem init_ok_of {g : List Poly} {d : Nat} (hgi : ∀ gi ∈ g, gi ≠ []) (hg : g ≠ [])
    (hd : minOrder g ≤ d) (kv : Mono × ℚ) (ftl : Poly) :
    init (kv :: ftl) g d = .ok
      { n := kv.1.length
        d := d
        varUsed := generateVariablesUpDegree (2 * d) kv.1.length
        MM := momentMatrix kv.1.length d (generateVariablesUpDegree (2 * d) kv.1.length)
        LM := (g.zip (g.map degHalfN)).map (fun q =>
          localizingMatrix kv.1.length (d - q.2) (generateVariablesUpDegree (2 * d) kv.1.length) q.1)
        c := (List.range' 1 ((generateVariablesUpDegree (2 * d) kv.1.length).length - 1)).map
          (fun v => dictGet (kv :: ftl) ((generateVariablesUpDegree (2 * d) kv.1.length).getD v [])) } := by
  unfold init
  split
  next e heq => rw [mapM_gDegHalf hgi] at heq; exact absurd heq (by simp)
  next gdh heq =>
    rw [mapM_gDegHalf hgi] at heq
    injection heq with heq'
    subst heq'
    split
    next e heq2 => rw [pyMax_map_degHalfN hg] at heq2; exact absurd heq2 (by simp)
    next mx heq2 =>
      rw [pyMax_map_degHalfN hg] at heq2
      injection heq2 with heq2'
      subst heq2'
      rw [if_neg (by omega)]

theorem init_invalid_of {f : Poly} {g : List Poly} {d : Nat}
    (hgi : ∀ gi ∈ g, gi ≠ []) (hg : g ≠ []) (hd : d < minOrder g) :
    init f g d = .error (.invalidRelaxationOrder (minOrder g)) := by
  unfold init
  split
  next e heq => rw [mapM_gDegHalf hgi] at heq; exact absurd heq (by simp)
  next gdh heq =>
    rw [mapM_gDegHalf hgi] at heq
    injection heq with heq'
    subst heq'
    split
    next e heq2 => rw [pyMax_map_degHalfN hg] at heq2; exact absurd heq2 (by simp)
    next mx heq2 =>
      rw [pyMax_map_degHalfN hg] at heq2
      injection heq2 with heq2'
      subst heq2'
      rw [if_pos (by omega)]

theorem init_empty_g (f : Poly) (d : Nat) : init f [] d = .error .emptyMaxArg := rfl

theorem init_ok_inv {f : Poly} {g : List Poly} {d : Nat} {P : POPData}
    (h : init f g d = .ok P) :
    ∃ kv ftl gDegsHalf mx, f = kv :: ftl ∧ g.mapM gDegHalf = .ok gDegsHalf ∧
      pyMax gDegsHalf = .ok mx ∧ ¬(mx > d) ∧
      P.n = kv.1.length ∧ P.d = d ∧
      P.varUsed = generateVariablesUpDegree (2 * d) kv.1.length ∧
      P.MM = momentMatrix kv.1.length d P.varUsed ∧
      P.LM = (g.zip gDegsHalf).map (fun q =>
        localizingMatrix kv.1.length (d - q.2) P.varUsed q.1) ∧
      P.c = (List.range' 1 (P.varUsed.length - 1)).map
        (fun v => dictGet f (P.varUsed.getD v [])) := by
  unfold init at h
  split at h
  next e heq => exact absurd h (by simp)
  next gdh heq =>
    split at h
    next e heq2 => exact absurd h (by simp)
    next mx heq2 =>
      split at h
      next hgt => exact absurd h (by simp)
      next hgt =>
        split at h
        next => exact absurd h (by simp)
        next kv ftl =>
          injection h with h'
          subst h'
          exact ⟨kv, ftl, gdh, mx, rfl, heq, heq2, hgt, rfl, rfl, rfl, rfl, rfl, rfl⟩

end POPSolver

end PolyOpt

/-! ### Claim theorems -/

namespace PolyOpt

namespace POPSolver

/-- C1: for every relaxation order `d` and variable count `n`, the family
`momentMatrix(d, Universe)` (with `Universe` the degree-`2d` monomial basis)
consists of `|Universe|` matrices, each `m × m` with `m = |Basis_d|`; for every
pair `0 ≤ i ≤ j < m`, if the elementwise sum `Basis_d[i] + Basis_d[j]` occurs
in the Universe at index `pos`, then `Family[pos][i,j] = Family[pos][j,i] = 1`
and that `pos` is unique; if the sum occurs nowhere, the cell `(i,j)` is zero
in every matrix of the family. -/
theorem momentMatrix_family_spec (n d : Nat) :
    (momentMatrix n d (generateVariablesUpDegree (2 * d) n)).length
        = (generateVariablesUpDegree (2 * d) n).length ∧
    (∀ M ∈ momentMatrix n d (generateVariablesUpDegree (2 * d) n),
        M.length = (generateVariablesUpDegree d n).length ∧
        ∀ r ∈ M, r.length = (generateVariablesUpDegree d n).length) ∧
    (∀ i j, i ≤ j → j < (generateVariablesUpDegree d n).length →
      (∀ pos, (generateVariablesUpDegree (2 * d) n)[pos]? =
            some (combo (generateVariablesUpDegree d n) i j) →
        entry (momentMatrix n d (generateVariablesUpDegree (2 * d) n)) pos i j = 1 ∧
        entry (momentMatrix n d (generateVariablesUpDegree (2 * d) n)) pos j i = 1 ∧
        (∀ q, (generateVariablesUpDegree (2 * d) n)[q]? =
            some (combo (generateVariablesUpDegree d n) i j) → q = pos)) ∧
      (combo (generateVariablesUpDegree d n) i j ∉ generateVariablesUpDegree (2 * d) n →
        ∀ pos,
          entry (momentMatrix n d (generateVariablesUpDegree (2 * d) n)) pos i j = 0 ∧
          entry (momentMatrix n d (generateVariablesUpDegree (2 * d) n)) pos j i = 0)) := by
  refine ⟨(famShape_momentMatrix n d _).1, (famShape_momentMatrix n d _).2, ?_⟩
  intro i j hij hjm
  have hnd := nodup_generateVariablesUpDegree (2 * d) n
  have hmin : min i j = i := by omega
  have hmax : max i j = j := by omega
  have hmin' : min j i = i := by omega
  have hmax' : max j i = j := by omega
  constructor
  · intro pos hpos
    have hfi : (generateVariablesUpDegree (2 * d) n).findIdx?
        (fun v => v == combo (generateVariablesUpDegree d n) i j) = some pos :=
      findIdx?_beq_of_getElem? hnd hpos
    refine ⟨?_, ?_, ?_⟩
    · rw [entry_momentMatrix n d _ i j pos (by omega) hjm, hmin, hmax, if_pos hfi]
    · rw [entry_momentMatrix n d _ j i pos hjm (by omega), hmin', hmax', if_pos hfi]
    · intro q hq
      obtain ⟨hposlt, hpose⟩ := List.getElem?_eq_some_iff.mp hpos
      obtain ⟨hqlt, hqe⟩ := List.getElem?_eq_some_iff.mp hq
      exact (hnd.getElem_inj_iff).mp (hqe.trans hpose.symm)
  · intro hnotmem pos
    have hfi : (generateVariablesUpDegree (2 * d) n).findIdx?
        (fun v => v == combo (generateVariablesUpDegree d n) i j) = none :=
      findIdx?_beq_eq_none hnotmem 0
    constructor
    · rw [entry_momentMatrix n d _ i j pos (by omega) hjm, hmin, hmax, hfi]
      simp
    · rw [entry_momentMatrix n d _ j i pos hjm (by omega), hmin', hmax', hfi]
      simp

theorem momentMatrix_family_spec_witness :
    entry (momentMatrix 1 1 (generateVariablesUpDegree 2 1)) 1 0 1 = 1 ∧
    entry (momentMatrix 1 1 (generateVariablesUpDegree 2 1)) 1 1 0 = 1 :=
  ⟨(((momentMatrix_family_spec 1 1).2.2 0 1 (by decide) (by decide)).1 1 (by decide)).1,
   (((momentMatrix_family_spec 1 1).2.2 0 1 (by decide) (by decide)).1 1 (by decide)).2.1⟩

end POPSolver

end PolyOpt

namespace PolyOpt

namespace POPSolver

theorem entry_momentMatrix_symm (n d : Nat) (varUsed : List Mono) (p a b : Nat) :
    entry (momentMatrix n d varUsed) p a b = entry (momentMatrix n d varUsed) p b a := by
  by_cases ham : a < (generateVariablesUpDegree d n).length
  · by_cases hbm : b < (generateVariablesUpDegree d n).length
    · rw [entry_momentMatrix n d varUsed a b p ham hbm,
        entry_momentMatrix n d varUsed b a p hbm ham, min_comm, max_comm]
    · rw [entry_zero_of_famShape (famShape_momentMatrix n d varUsed) p a b
          (Or.inr (Or.inr (by omega))),
        entry_zero_of_famShape (famShape_momentMatrix n d varUsed) p b a
          (Or.inr (Or.inl (by omega)))]
  · rw [entry_zero_of_famShape (famShape_momentMatrix n d varUsed) p a b
        (Or.inr (Or.inl (by omega))),
      entry_zero_of_famShape (famShape_momentMatrix n d varUsed) p b a
        (Or.inr (Or.inr (by omega)))]

theorem entry_localizingMatrix_symm (n d : Nat) (varUsed : List Mono) (g : Poly)
    (p a b : Nat) :
    entry (localizingMatrix n d varUsed g) p a b
      = entry (localizingMatrix n d varUsed g) p b a := by
  by_cases ham : a < (generateVariablesUpDegree d n).length
  · by_cases hbm : b < (generateVariablesUpDegree d n).length
    · rw [entry_localizingMatrix n d varUsed g a b p ham hbm,
        entry_localizingMatrix n d varUsed g b a p hbm ham, min_comm, max_comm]
    · rw [entry_zero_of_famShape (famShape_localizingMatrix n d varUsed g) p a b
          (Or.inr (Or.inr (by omega))),
        entry_zero_of_famShape (famShape_localizingMatrix n d varUsed g) p b a
          (Or.inr (Or.inl (by omega)))]
  · rw [entry_zero_of_famShape (famShape_localizingMatrix n d varUsed g) p a b
        (Or.inr (Or.inl (by omega))),
      entry_zero_of_famShape (famShape_localizingMatrix n d varUsed g) p b a
        (Or.inr (Or.inr (by omega)))]

/-- C9: every matrix of every affine matrix family produced at construction
(the moment matrix family `P.MM` and each localizing matrix family in `P.LM`)
is symmetric: `Family[pos][i,j] = Family[pos][j,i]` for all indices. -/
theorem constructed_families_symmetric (f : Poly) (g : List Poly) (d : Nat) (P : POPData)
    (h : init f g d = .ok P) :
    (∀ p a b, entry P.MM p a b = entry P.MM p b a) ∧
    (∀ F ∈ P.LM, ∀ p a b, entry F p a b = entry F p b a) := by
  obtain ⟨kv, ftl, gdh, mx, rfl, hm, hpm, hgt, hn, hd, hvu, hMM, hLM, hc⟩ := init_ok_inv h
  constructor
  · intro p a b
    rw [hMM]
    exact entry_momentMatrix_symm _ _ _ p a b
  · intro F hF p a b
    rw [hLM] at hF
    rw [List.mem_map] at hF
    obtain ⟨q, hq, rfl⟩ := hF
    exact entry_localizingMatrix_symm _ _ _ _ p a b

theorem constructed_families_symmetric_witness :
    ∃ P, init [([2], (1 : ℚ))] [[([0], (1 : ℚ)), ([2], (-1 : ℚ))]] 1 = .ok P ∧
      entry P.MM 1 0 1 = entry P.MM 1 1 0 :=
  ⟨_, init_ok_of (g := [[([0], (1 : ℚ)), ([2], (-1 : ℚ))]]) (by decide) (by decide)
      (by decide) ([2], (1 : ℚ)) [],
    (constructed_families_symmetric [([2], (1 : ℚ))] [[([0], (1 : ℚ)), ([2], (-1 : ℚ))]] 1 _
      (init_ok_of (by decide) (by decide) (by decide) ([2], (1 : ℚ)) [])).1 1 0 1⟩

end POPSolver

end PolyOpt

namespace PolyOpt

namespace POPSolver

/-- C2: at construction each localizing matrix family is built at the reduced
order `r = d − ⌈deg(g_i)/2⌉`; for every `(mon, coef)` pair of a constraint and
every pair `i ≤ j` of `Basis_r` indices, when `Basis_r[i] + Basis_r[j] + mon`
occurs in the Universe at index `pos` the coefficient is accumulated (added,
not overwritten) into `Family[pos][i,j]` (and `[j,i]` when `i ≠ j`), so the
final entry is the sum of the coefficients of all monomials mapping to that
cell; in particular two monomials with coefficients `c1`, `c2` mapping to the
same cell `(pos, i, j)` yield the entry `c1 + c2`. -/
theorem localizingMatrix_accumulation_spec (f : Poly) (g : List Poly) (d : Nat) (P : POPData)
    (hgi : ∀ gi ∈ g, gi ≠ []) (h : init f g d = .ok P) :
    (∀ k, k < g.length →
      P.LM.getD k [] =
        localizingMatrix P.n (d - degHalfN (g.getD k [])) P.varUsed (g.getD k [])) ∧
    (∀ (r : Nat) (gp : Poly) (a b p : Nat),
      a < (generateVariablesUpDegree r P.n).length →
      b < (generateVariablesUpDegree r P.n).length →
      entry (localizingMatrix P.n r P.varUsed gp) p a b =
        (gp.map (fun mc =>
          if P.varUsed[p]? =
              some (combo3 (generateVariablesUpDegree r P.n) (min a b) (max a b) mc.1)
          then mc.2 else 0)).sum) ∧
    (∀ (r : Nat) (m1 m2 : Mono) (c1 c2 : ℚ) (a b p : Nat),
      a < (generateVariablesUpDegree r P.n).length →
      b < (generateVariablesUpDegree r P.n).length →
      P.varUsed[p]? = some (combo3 (generateVariablesUpDegree r P.n) (min a b) (max a b) m1) →
      P.varUsed[p]? = some (combo3 (generateVariablesUpDegree r P.n) (min a b) (max a b) m2) →
      entry (localizingMatrix P.n r P.varUsed [(m1, c1), (m2, c2)]) p a b = c1 + c2) := by
  obtain ⟨kv, ftl, gdh, mx, rfl, hm, hpm, hgt, hn, hd, hvu, hMM, hLM, hc⟩ := init_ok_inv h
  have hgdh : gdh = g.map degHalfN := by
    have hmm := mapM_gDegHalf hgi
    rw [hm] at hmm
    exact Except.ok.inj hmm
  subst hgdh
  have hnodup : P.varUsed.Nodup := by
    rw [hvu]
    exact nodup_generateVariablesUpDegree _ _
  have hmain : ∀ (r : Nat) (gp : Poly) (a b p : Nat),
      a < (generateVariablesUpDegree r P.n).length →
      b < (generateVariablesUpDegree r P.n).length →
      entry (localizingMatrix P.n r P.varUsed gp) p a b =
        (gp.map (fun mc =>
          if P.varUsed[p]? =
              some (combo3 (generateVariablesUpDegree r P.n) (min a b) (max a b) mc.1)
          then mc.2 else 0)).sum := by
    intro r gp a b p ha hb
    rw [entry_localizingMatrix P.n r P.varUsed gp a b p ha hb]
    congr 1
    apply List.map_congr_left
    intro mc _
    refine if_congr ⟨fun hfi => getElem?_of_findIdx?_beq hfi, fun hg => ?_⟩ rfl rfl
    exact findIdx?_beq_of_getElem? hnodup hg
  refine ⟨?_, hmain, ?_⟩
  · intro k hk
    rw [hLM]
    have hlz : k < ((g.zip (g.map degHalfN)).map (fun q =>
        localizingMatrix kv.1.length (d - q.2) P.varUsed q.1)).length := by
      rw [List.length_map, List.length_zip, List.length_map]
      omega
    rw [List.getD_eq_getElem _ [] hlz, List.getElem_map, List.getElem_zip, List.getElem_map]
    rw [List.getD_eq_getElem g [] hk, hn]
  · intro r m1 m2 c1 c2 a b p ha hb h1 h2
    rw [hmain r [(m1, c1), (m2, c2)] a b p ha hb]
    have h12 : combo3 (generateVariablesUpDegree r P.n) (min a b) (max a b) m1
        = combo3 (generateVariablesUpDegree r P.n) (min a b) (max a b) m2 :=
      Option.some.inj (h1.symm.trans h2)
    simp [h1, h2, h12]

theorem localizingMatrix_accumulation_spec_witness :
    ∃ P, init [([2], (1 : ℚ))] [[([0], (1 : ℚ)), ([2], (-1 : ℚ))]] 1 = .ok P ∧
      entry (localizingMatrix P.n 0 P.varUsed [([0], (1 : ℚ)), ([0], (2 : ℚ))]) 0 0 0
        = 1 + 2 :=
  ⟨_, init_ok_of (g := [[([0], (1 : ℚ)), ([2], (-1 : ℚ))]]) (by decide) (by decide)
      (by decide) ([2], (1 : ℚ)) [],
    (localizingMatrix_accumulation_spec [([2], (1 : ℚ))]
        [[([0], (1 : ℚ)), ([2], (-1 : ℚ))]] 1 _ (by decide)
        (init_ok_of (by decide) (by decide) (by decide) ([2], (1 : ℚ)) [])).2.2
      0 [0] [0] 1 2 0 0 0 (by decide) (by decide) (by decide) (by decide)⟩

end POPSolver

end PolyOpt

namespace PolyOpt

namespace POPSolver

/-- C3: with a non-empty constraint list (of non-empty constraints) and a
non-empty objective, construction raises the invalid-relaxation-order error if
and only if `d < max_i ⌈deg(g_i)/2⌉`, the error reporting that maximum (the
minimum acceptable order); when `d` is large enough construction succeeds. -/
theorem init_relaxation_order_check (f : Poly) (g : List Poly) (d : Nat)
    (hf : f ≠ []) (hg : g ≠ []) (hgi : ∀ gi ∈ g, gi ≠ []) :
    (init f g d = .error (.invalidRelaxationOrder (minOrder g)) ↔ d < minOrder g) ∧
    ((∃ P, init f g d = .ok P) ↔ minOrder g ≤ d) := by
  constructor
  · constructor
    · intro herr
      by_contra hnot
      obtain ⟨kv, ftl, rfl⟩ : ∃ kv ftl, f = kv :: ftl := by
        cases f with
        | nil => exact absurd rfl hf
        | cons kv ftl => exact ⟨kv, ftl, rfl⟩
      rw [init_ok_of hgi hg (by omega) kv ftl] at herr
      exact absurd herr (by simp)
    · intro hlt
      exact init_invalid_of hgi hg hlt
  · constructor
    · rintro ⟨P, hP⟩
      obtain ⟨kv, ftl, gdh, mx, rfl, hm, hpm, hgt, -, -, -, -, -, -⟩ := init_ok_inv hP
      have hgdh : gdh = g.map degHalfN := by
        have hmm := mapM_gDegHalf hgi
        rw [hm] at hmm
        exact Except.ok.inj hmm
      subst hgdh
      have hmx : mx = minOrder g := by
        have hpm2 := pyMax_map_degHalfN hg
        rw [hpm] at hpm2
        exact Except.ok.inj hpm2
      omega
    · intro hle
      obtain ⟨kv, ftl, rfl⟩ : ∃ kv ftl, f = kv :: ftl := by
        cases f with
        | nil => exact absurd rfl hf
        | cons kv ftl => exact ⟨kv, ftl, rfl⟩
      exact ⟨_, init_ok_of hgi hg hle kv ftl⟩

theorem init_relaxation_order_check_witness :
    (init [([4], (1 : ℚ))] [[([4], (1 : ℚ))]] 1 =
        .error (.invalidRelaxationOrder (minOrder [[([4], (1 : ℚ))]])) ↔
      1 < minOrder [[([4], (1 : ℚ))]]) ∧
    ((∃ P, init [([4], (1 : ℚ))] [[([4], (1 : ℚ))]] 1 = .ok P) ↔
      minOrder [[([4], (1 : ℚ))]] ≤ 1) :=
  init_relaxation_order_check [([4], (1 : ℚ))] [[([4], (1 : ℚ))]] 1
    (by decide) (by decide) (by decide)

/-- C4: after construction the objective vector `c` has length
`|Universe| − 1`, and `c[k−1]` is the coefficient of `Universe[k]` in the
objective (0 when absent) for every `k = 1 … |Universe|−1`; the constant
monomial `Universe[0]` (the all-zero tuple) is never among the looked-up
monomials. -/
theorem objective_vector_spec (f : Poly) (g : List Poly) (d : Nat) (P : POPData)
    (h : init f g d = .ok P) :
    P.c.length = P.varUsed.length - 1 ∧
    (∀ k, 1 ≤ k → k < P.varUsed.length →
      P.c[k - 1]? = some (dictGet f (P.varUsed.getD k []))) ∧
    P.varUsed.getD 0 [] = List.replicate P.n 0 ∧
    (∀ k, 1 ≤ k → k < P.varUsed.length →
      P.varUsed.getD k [] ≠ List.replicate P.n 0) := by
  obtain ⟨kv, ftl, gdh, mx, rfl, hm, hpm, hgt, hn, hd, hvu, hMM, hLM, hc⟩ := init_ok_inv h
  obtain ⟨rest, hcons⟩ := generateVariablesUpDegree_eq_cons (2 * d) kv.1.length
  have hhead : P.varUsed.getD 0 [] = List.replicate P.n 0 := by
    rw [hvu, hcons, List.getD_cons_zero, hn]
  refine ⟨?_, ?_, hhead, ?_⟩
  · rw [hc, List.length_map, List.length_range']
  · intro k h1 h2
    rw [hc, List.getElem?_map, List.getElem?_range' 1 1 (by omega)]
    have hidx : 1 + 1 * (k - 1) = k := by omega
    rw [hidx]
    rfl
  · intro k h1 h2
    have hnd : P.varUsed.Nodup := by
      rw [hvu]
      exact nodup_generateVariablesUpDegree _ _
    have h0 : 0 < P.varUsed.length := by omega
    rw [List.getD_eq_getElem P.varUsed [] h2]
    intro hconst
    have hconst0 : P.varUsed[k] = P.varUsed[0] := by
      rw [hconst, ← hhead, List.getD_eq_getElem P.varUsed [] h0]
    have := (hnd.getElem_inj_iff).mp hconst0
    omega

theorem objective_vector_spec_witness :
    ∃ P, init [([2], (1 : ℚ))] [[([0], (1 : ℚ)), ([2], (-1 : ℚ))]] 1 = .ok P ∧
      P.c[1]? = some (dictGet [([2], (1 : ℚ))] (P.varUsed.getD 2 [])) :=
  ⟨_, init_ok_of (g := [[([0], (1 : ℚ)), ([2], (-1 : ℚ))]]) (by decide) (by decide)
      (by decide) ([2], (1 : ℚ)) [],
    (objective_vector_spec [([2], (1 : ℚ))] [[([0], (1 : ℚ)), ([2], (-1 : ℚ))]] 1 _
      (init_ok_of (by decide) (by decide) (by decide) ([2], (1 : ℚ)) [])).2.1
      2 (by decide) (by decide)⟩

end POPSolver

end PolyOpt

namespace PolyOpt

namespace POPSolver

/-- C5: `getFeasiblePoint` raises the insufficient-samples error if and only
if fewer than `C(n+d, n)` sample points are supplied, the error reporting that
required count; in particular it raises on exactly `C(n+d, n) − 1` points. -/
theorem getFeasiblePoint_insufficient (P : POPData) (xs : List (List ℚ)) :
    (getFeasiblePoint P xs =
        .error (.insufficientSamples (Nat.choose (P.n + P.d) P.n)) ↔
      xs.length < Nat.choose (P.n + P.d) P.n) ∧
    (xs.length = Nat.choose (P.n + P.d) P.n - 1 →
      getFeasiblePoint P xs =
        .error (.insufficientSamples (Nat.choose (P.n + P.d) P.n))) := by
  have hNpos : 0 < Nat.choose (P.n + P.d) P.n := Nat.choose_pos (by omega)
  unfold getFeasiblePoint
  by_cases hlt : xs.length < Nat.choose (P.n + P.d) P.n
  · rw [if_pos hlt]
    exact ⟨by simp [hlt], fun _ => rfl⟩
  · rw [if_neg hlt]
    refine ⟨⟨fun hcon => absurd hcon (by simp), fun hcon => absurd hcon hlt⟩, ?_⟩
    intro hlen
    omega

theorem getFeasiblePoint_insufficient_witness :
    getFeasiblePoint ⟨1, 1, [], [], [], []⟩ [[2]] =
      .error (.insufficientSamples (Nat.choose (1 + 1) 1)) :=
  (getFeasiblePoint_insufficient ⟨1, 1, [], [], [], []⟩ [[2]]).2 (by decide)

/-- C6: on at least `C(n+d, n)` samples, `getFeasiblePoint` returns the
empirical moment vector over `usedVars` (the degree-`2d` universe without its
constant first entry): `y[α] = (1/|samples|) · Σ_x Π_j x_j^{α_j}`; for a
singleton sample list `[x0]` every coordinate equals the monomial value at
`x0` exactly. -/
theorem getFeasiblePoint_moments (P : POPData) (xs : List (List ℚ))
    (h : Nat.choose (P.n + P.d) P.n ≤ xs.length) :
    ∃ y, getFeasiblePoint P xs = .ok y ∧
      y.length = ((generateVariablesUpDegree (2 * P.d) P.n).drop 1).length ∧
      (∀ a, a < ((generateVariablesUpDegree (2 * P.d) P.n).drop 1).length →
        y[a]? = some ((xs.map (fun x =>
            monValue P.n x (((generateVariablesUpDegree (2 * P.d) P.n).drop 1).getD a []))).sum
          / (xs.length : ℚ))) ∧
      (∀ x0, xs = [x0] →
        ∀ a, a < ((generateVariablesUpDegree (2 * P.d) P.n).drop 1).length →
        y[a]? = some (monValue P.n x0
          (((generateVariablesUpDegree (2 * P.d) P.n).drop 1).getD a []))) := by
  have hform : getFeasiblePoint P xs = .ok
      ((((generateVariablesUpDegree (2 * P.d) P.n).drop 1).map
        (fun alpha => (xs.map (fun x => monValue P.n x alpha)).sum)).map
        (fun v => v / (xs.length : ℚ))) := by
    unfold getFeasiblePoint
    rw [if_neg (by omega)]
  refine ⟨_, hform, by simp, ?_, ?_⟩
  · intro a ha
    rw [List.getElem?_map, List.getElem?_map, List.getElem?_eq_getElem ha]
    rw [List.getD_eq_getElem _ [] ha]
    rfl
  · rintro x0 rfl a ha
    rw [List.getElem?_map, List.getElem?_map, List.getElem?_eq_getElem ha]
    rw [List.getD_eq_getElem _ [] ha]
    simp

/-- Witness: two one-dimensional samples `x = 2` and `x = 3` at `n = d = 1`. -/
theorem getFeasiblePoint_moments_witness :
    ∃ y, getFeasiblePoint ⟨1, 1, [], [], [], []⟩ [[2], [3]] = .ok y ∧
      y.length = ((generateVariablesUpDegree (2 * 1) 1).drop 1).length ∧
      (∀ a, a < ((generateVariablesUpDegree (2 * 1) 1).drop 1).length →
        y[a]? = some ((([[2], [3]] : List (List ℚ)).map (fun x =>
            monValue 1 x (((generateVariablesUpDegree (2 * 1) 1).drop 1).getD a []))).sum
          / ((2 : Nat) : ℚ))) ∧
      (∀ x0, [[2], [3]] = [x0] →
        ∀ a, a < ((generateVariablesUpDegree (2 * 1) 1).drop 1).length →
        y[a]? = some (monValue 1 x0
          (((generateVariablesUpDegree (2 * 1) 1).drop 1).getD a []))) :=
  getFeasiblePoint_moments ⟨1, 1, [], [], [], []⟩ [[2], [3]] (by decide)

/-- C7: `solve` returns exactly the first `n` coordinates of the moment vector
`y` handed back by the external SDP engine, unchanged and in order, where `n`
is the variable count inferred at construction (the arity of the objective's
first monomial). -/
theorem solve_extracts_first_coordinates (f : Poly) (g : List Poly) (d : Nat)
    (P : POPData) (h : init f g d = .ok P) (y : List ℚ) :
    (solve P y).length = min P.n y.length ∧
    (∀ k, k < P.n → (solve P y)[k]? = y[k]?) ∧
    (∀ kv ftl, f = kv :: ftl → P.n = kv.1.length) := by
  obtain ⟨kv, ftl, gdh, mx, rfl, hm, hpm, hgt, hn, -, -, -, -, -⟩ := init_ok_inv h
  refine ⟨by simp [solve], ?_, ?_⟩
  · intro k hk
    simp [solve, List.getElem?_take, hk]
  · rintro kv' ftl' heq
    injection heq with h1 h2
    rw [hn, h1]

theorem solve_extracts_first_coordinates_witness :
    ∃ P, init [([2], (1 : ℚ))] [[([0], (1 : ℚ)), ([2], (-1 : ℚ))]] 1 = .ok P ∧
      (solve P [5, 6, 7])[0]? = ([5, 6, 7] : List ℚ)[0]? :=
  ⟨_, init_ok_of (g := [[([0], (1 : ℚ)), ([2], (-1 : ℚ))]]) (by decide) (by decide)
      (by decide) ([2], (1 : ℚ)) [],
    (solve_extracts_first_coordinates [([2], (1 : ℚ))]
        [[([0], (1 : ℚ)), ([2], (-1 : ℚ))]] 1 _
        (init_ok_of (by decide) (by decide) (by decide) ([2], (1 : ℚ)) [])
        [5, 6, 7]).2.1 0 (by decide)⟩

/-- C8: querying the moment matrix rank before `solve` has been invoked fails
with the "not solved" error; after a successful solve it returns the first of
the ranks reported by the external engine (the moment matrix family's rank). -/
theorem momentMatrixRank_spec (s : SDPState) :
    (s.solved = false → momentMatrixRank s = .error .notSolvedYet) ∧
    (∀ r rest, s.solved = true → s.rankList = r :: rest →
      momentMatrixRank s = .ok r) := by
  constructor
  · intro hs
    simp [momentMatrixRank, ranks, hs]
  · intro r rest hs hr
    simp [momentMatrixRank, ranks, hs, hr]

theorem momentMatrixRank_spec_witness :
    momentMatrixRank ⟨false, [3]⟩ = .error .notSolvedYet ∧
    momentMatrixRank ⟨true, [3]⟩ = .ok 3 :=
  ⟨(momentMatrixRank_spec ⟨false, [3]⟩).1 rfl,
   (momentMatrixRank_spec ⟨true, [3]⟩).2 3 [] rfl rfl⟩

/-- C10: constructing with an empty constraint list always fails with the
empty-`max`-argument error (Python's `max()` on an empty sequence), raised
before the relaxation-order validation completes — in particular the result is
neither a successful construction nor an invalid-relaxation-order error. -/
theorem init_empty_constraint_list (f : Poly) (d : Nat) :
    init f [] d = .error .emptyMaxArg :=
  init_empty_g f d

end POPSolver

end PolyOpt
